import Mathlib

/-!
Shallow embedding of `rm_utils.py` — statistical utilities for random-matrix
(GOE) eigenvalue spectra — together with theorems settling the specification
claims about them.

Modelling conventions:
* numpy 1-D float arrays are `List ℝ` (or `List ℚ` for the purely
  order/filter-based `get_bulk_edge_values`, whose comparisons against the
  literals `2.0` and `-2.0` are exact); float64/float32 arithmetic is modelled
  as exact real arithmetic, and the final `.astype(np.float32)` narrowing is
  modelled as exact (for `rm_sampling` it is kept as an abstract cast
  parameter, since the claims about it are structural).
* the IEEE NaN produced by `np.sqrt` of a negative number or `np.mean` of an
  empty array is modelled by the value `RVal.nan`; a raised Python exception
  (broadcast `ValueError`, boolean-index `IndexError`) is modelled by `none`
  in an `Option` result.
* `numpy.random.Generator` is modelled as an infinite stream `g : ℕ → ℝ` of
  standard-normal deviates together with a cursor: `rng.normal(scale=s,
  size=(N, N))` consumes the next `N*N` deviates in C (row-major) order and
  scales each by `s`.
-/

/-- A numpy floating-point scalar: either a real value or the NaN sentinel. -/
inductive RVal where
  | nan : RVal
  | val : ℝ → RVal

/-- Model of `np.sqrt` on a scalar: NaN propagates, and the square root of a negative
number is NaN. -/
noncomputable def npSqrt : RVal → RVal
  | RVal.nan => RVal.nan
  | RVal.val x => if x < 0 then RVal.nan else RVal.val (Real.sqrt x)

/-- Model of `np.mean` of a 1-D array: the arithmetic mean, or NaN for an empty array
(numpy emits a `RuntimeWarning` and returns `nan`). -/
noncomputable def npMean : List ℝ → RVal
  | [] => RVal.nan
  | l => RVal.val (l.sum / l.length)

/-- Model of `np.square`: elementwise square. -/
def npSquare (l : List ℝ) : List ℝ := l.map (fun x => x ^ 2)

/-- Division of a numpy scalar by a real constant; NaN propagates. -/
noncomputable def rvalDivC : RVal → ℝ → RVal
  | RVal.nan, _ => RVal.nan
  | RVal.val x, c => RVal.val (x / c)

/-- numpy 1-D subtraction `a - b` with broadcasting: equal lengths subtract
elementwise; a length-1 operand is broadcast against the other; any other
length mismatch raises `ValueError: operands could not be broadcast`
(modelled as `none`). -/
def npSub (a b : List ℝ) : Option (List ℝ) :=
  if a.length = b.length then some (List.zipWith (fun x y => x - y) a b)
  else
    match a, b with
    | [x], b => some (b.map (fun y => x - y))
    | a, [y] => some (a.map (fun x => x - y))
    | _, _ => none

/-- Select the entries of `xs` at the `true` positions of a same-length
boolean mask (the semantics of numpy boolean-array indexing). -/
def maskSelect {α : Type} : List α → List Bool → List α
  | x :: xs, b :: bs => if b then x :: maskSelect xs bs else maskSelect xs bs
  | _, _ => []

/-- numpy boolean-array indexing `xs[mask]`: if the mask length differs from
the array length numpy raises `IndexError: boolean index did not match
indexed array along dimension 0` (modelled as `none`); otherwise it returns
the entries at the `true` positions. -/
def npBoolIndex {α : Type} (xs : List α) (mask : List Bool) : Option (List α) :=
  if xs.length = mask.length then some (maskSelect xs mask) else none

/-- Embedding of `rmse(numerical, expected)` from `rm_utils.py`:
`err = np.square(numerical - expected).mean(); return np.sqrt(err)`.
A broadcast failure in the subtraction raises (`none`); otherwise the result
is the numpy scalar (possibly NaN, for empty input). -/
noncomputable def rmse (numerical expected : List ℝ) : Option RVal :=
  (npSub numerical expected).map (fun d => npSqrt (npMean (npSquare d)))

/-- Scalar Wigner semicircle density from `rm_utils.py`:
`rho = np.sqrt(4 - l ** 2) / (2 * np.pi)` (the `astype(np.float32)` narrowing
is modelled as exact). NaN (out-of-domain square root) propagates through
the division. -/
noncomputable def wignerVal (x : ℝ) : RVal :=
  rvalDivC (npSqrt (RVal.val (4 - x ^ 2))) (2 * Real.pi)

/-- Embedding of `wigner(l)` from `rm_utils.py`, vectorized over a 1-D array. -/
noncomputable def wigner (l : List ℝ) : List RVal := l.map wignerVal

/-- The bulk predicate of `get_bulk_edge_values`: `right * left`, i.e.
`(x <= 2.0) and (x >= -2.0)`. -/
def bulkP (x : ℚ) : Bool := decide (x ≤ 2) && decide (-2 ≤ x)

/-- Embedding of `get_bulk_edge_values(counts, bins)` from `rm_utils.py`:
builds `bulk_mask = (bins[:-1] <= 2.0) * (bins[:-1] >= -2.0)` and
`tails_mask = ~bulk_mask`, indexes `counts` and `bins[:-1]` by each mask
(numpy raises `IndexError` when a mask length mismatches, hence `Option`),
and returns `(bulk_rho, bulk_lambdas, tails_rho, tails_lambdas)`. -/
def get_bulk_edge_values (counts bins : List ℚ) :
    Option (List ℚ × List ℚ × List ℚ × List ℚ) :=
  let binsInit := bins.dropLast
  let right := binsInit.map (fun x => decide (x ≤ 2))
  let left := binsInit.map (fun x => decide (-2 ≤ x))
  let bulk_mask := List.zipWith (fun a b => a && b) right left
  let tails_mask := bulk_mask.map (fun b => !b)
  (npBoolIndex counts bulk_mask).bind (fun bulk_rho =>
    (npBoolIndex counts tails_mask).bind (fun tails_rho =>
      (npBoolIndex binsInit bulk_mask).bind (fun bulk_lambdas =>
        (npBoolIndex binsInit tails_mask).map (fun tails_lambdas =>
          (bulk_rho, bulk_lambdas, tails_rho, tails_lambdas)))))

/-- Model of `rng.normal(scale=sigma, size=(N, N))`: an `N × N` matrix (list of rows)
whose `(i, j)` entry is `sigma` times the standard-normal deviate at stream
position `c + i*N + j` (row-major consumption from cursor `c`). -/
noncomputable def drawMatrix (N : ℕ) (sigma : ℝ) (g : ℕ → ℝ) (c : ℕ) :
    List (List ℝ) :=
  (List.range N).map (fun i => (List.range N).map (fun j => sigma * g (c + (i * N + j))))

/-- Embedding of `Xs = (X + X.T) / 2 ** 0.5`: the symmetrization step of `rm_sampling`,
for a square matrix given as a list of rows. -/
noncomputable def symmetrize (X : List (List ℝ)) : List (List ℝ) :=
  (List.range X.length).map (fun i =>
    (List.range X.length).map (fun j =>
      ((X.getD i []).getD j 0 + (X.getD j []).getD i 0) / Real.sqrt 2))

/-- The sampling loop of `rm_sampling`: each iteration draws an `N × N`
matrix (advancing the generator cursor by `N*N`), symmetrizes it, records
`eigvalsh(Xs).astype(np.float32)` (the symmetric eigensolver `eig` and the
float32 narrowing `cast` are abstract parameters: they are numpy internals,
not code of this repository), and appends the result to the accumulator. -/
noncomputable def rm_sampling_loop (eig : List (List ℝ) → List ℝ) (cast : ℝ → ℝ)
    (N : ℕ) (sigma : ℝ) (g : ℕ → ℝ) :
    ℕ → ℕ → List (List ℝ) → List (List ℝ)
  | 0, _, acc => acc
  | m + 1, c, acc =>
      rm_sampling_loop eig cast N sigma g m (c + N * N)
        (acc ++ [(eig (symmetrize (drawMatrix N sigma g c))).map cast])

/-- Embedding of `rm_sampling(n_samples, N, rng)` from `rm_utils.py`: runs the sampling
loop with `sigma = N ** (-0.5)` starting from cursor 0 with an empty
accumulator, then flattens the collected per-sample eigenvalue arrays
(`np.array(lambdas).flatten()`) into one list. -/
noncomputable def rm_sampling (eig : List (List ℝ) → List ℝ) (cast : ℝ → ℝ)
    (n_samples N : ℕ) (g : ℕ → ℝ) : List ℝ :=
  (rm_sampling_loop eig cast N ((N : ℝ) ^ (-(1 / 2 : ℝ))) g n_samples 0 []).flatten

/-- The specification's description of `rm_sampling`: the concatenation, over
`n_samples` iterations in order, of the cast eigenvalues of
`Xs = (X + X.T) / sqrt 2`, where the `k`-th iteration's `X` is the `N × N`
matrix of deviates at stream positions `k*N*N, ..., (k+1)*N*N - 1`, scaled by
`sigma = N ** (-1/2)`. -/
noncomputable def rm_sampling_spec (eig : List (List ℝ) → List ℝ) (cast : ℝ → ℝ)
    (n_samples N : ℕ) (g : ℕ → ℝ) : List ℝ :=
  ((List.range n_samples).map (fun k =>
    (eig (symmetrize (drawMatrix N ((N : ℝ) ^ (-(1 / 2 : ℝ))) g (k * (N * N))))).map cast)).flatten

/-! ### Helper lemmas about mask selection and filtering -/

/-- Elementwise `and` of two mapped masks over the same list is the mask of
the conjunction. -/
lemma zipWith_and_map_map {β : Type} (p q : β → Bool) (l : List β) :
    List.zipWith (fun a b => a && b) (l.map p) (l.map q) =
      l.map (fun x => p x && q x) := by
  induction l with
  | nil => rfl
  | cons x xs ih => simp [ih]

/-- Selecting from `xs` (resp. `ys`) by the mask `ys.map p` of a same-length
list is filtering the zipped pairs on the predicate of the second component
and projecting. -/
lemma maskSelect_zip {α β : Type} (p : β → Bool) :
    ∀ (xs : List α) (ys : List β), xs.length = ys.length →
      maskSelect xs (ys.map p) =
        ((xs.zip ys).filter (fun pr => p pr.2)).map Prod.fst ∧
      maskSelect ys (ys.map p) =
        ((xs.zip ys).filter (fun pr => p pr.2)).map Prod.snd
  | [], [] => fun _ => ⟨rfl, rfl⟩
  | [], y :: ys => by intro h; simp at h
  | x :: xs, [] => by intro h; simp at h
  | x :: xs, y :: ys => by
      intro h
      have h' : xs.length = ys.length := by simpa using h
      have ih := maskSelect_zip p xs ys h'
      by_cases hp : p y = true
      · simp [maskSelect, List.filter_cons, hp, ih.1, ih.2]
      · simp only [Bool.not_eq_true] at hp
        simp [maskSelect, List.filter_cons, hp, ih.1, ih.2]

/-- Selecting from a list by the mask of a predicate over itself is
filtering. -/
lemma maskSelect_self {β : Type} (p : β → Bool) (ys : List β) :
    maskSelect ys (ys.map p) = ys.filter p := by
  induction ys with
  | nil => rfl
  | cons y ys ih =>
      by_cases hp : p y = true
      · simp [maskSelect, List.filter_cons, hp, ih]
      · simp only [Bool.not_eq_true] at hp
        simp [maskSelect, List.filter_cons, hp, ih]

/-- The lengths of the two complementary filters of a list add up to its
length. -/
lemma length_filter_add_length_filter_not {α : Type} (l : List α) (p : α → Bool) :
    (l.filter p).length + (l.filter (fun x => !p x)).length = l.length := by
  induction l with
  | nil => rfl
  | cons x xs ih => by_cases h : p x = true <;> simp [List.filter_cons, h] <;> omega

/-- Characterization of `get_bulk_edge_values` on well-formed histograms:
it returns (in this order) the counts then the left edges of the bulk bins,
then the counts then the left edges of the tail bins, as obtained by
filtering the paired `(count, left edge)` sequence by `bulkP` on the edge. -/
lemma get_bulk_eq (counts bins : List ℚ) (h : bins.length = counts.length + 1) :
    get_bulk_edge_values counts bins =
      some (((counts.zip bins.dropLast).filter (fun pr => bulkP pr.2)).map Prod.fst,
            ((counts.zip bins.dropLast).filter (fun pr => bulkP pr.2)).map Prod.snd,
            ((counts.zip bins.dropLast).filter (fun pr => !bulkP pr.2)).map Prod.fst,
            ((counts.zip bins.dropLast).filter (fun pr => !bulkP pr.2)).map Prod.snd) := by
  have hlen : counts.length = bins.dropLast.length := by
    rw [List.length_dropLast, h]
    simp
  have hmask : List.zipWith (fun a b => a && b)
      (bins.dropLast.map (fun x => decide (x ≤ 2)))
      (bins.dropLast.map (fun x => decide (-2 ≤ x))) =
      bins.dropLast.map bulkP :=
    zipWith_and_map_map _ _ _
  have hnot : (bins.dropLast.map bulkP).map (fun b => !b) =
      bins.dropLast.map (fun x => !bulkP x) := by
    rw [List.map_map]; rfl
  have hsel := maskSelect_zip bulkP counts bins.dropLast hlen
  have hselN := maskSelect_zip (fun x => !bulkP x) counts bins.dropLast hlen
  simp only [get_bulk_edge_values, hmask, hnot, npBoolIndex, List.length_map,
    hlen, if_pos rfl, Option.bind_some, Option.map_some, hsel.1, hsel.2,
    hselN.1, hselN.2]
  rfl

/-- When the mask length cannot match (any violation of the histogram
convention except the doubly-empty input), `get_bulk_edge_values` hits the
numpy boolean-indexing `IndexError` on its first indexing and fails. -/
lemma get_bulk_none (counts bins : List ℚ)
    (hlen : bins.length ≠ counts.length + 1)
    (hne : bins ≠ [] ∨ counts ≠ []) :
    get_bulk_edge_values counts bins = none := by
  have hdl : bins.dropLast.length = bins.length - 1 := List.length_dropLast bins
  have hd : counts.length ≠ bins.dropLast.length := by
    by_cases hb : bins = []
    · subst hb
      have hc : counts ≠ [] := by tauto
      have hpos : 0 < counts.length := List.length_pos.mpr hc
      simp only [List.dropLast_nil, List.length_nil]
      omega
    · have hpos : 0 < bins.length := List.length_pos.mpr hb
      omega
  simp [get_bulk_edge_values, npBoolIndex, List.length_zipWith,
    List.length_map, min_self, hd]
  omega

/-- Projecting the second components of the bulk-filtered `(count, edge)`
pairs gives the filtered edges themselves. -/
lemma filter_zip_map_snd (p : ℚ → Bool) (xs ys : List ℚ)
    (h : xs.length = ys.length) :
    ((xs.zip ys).filter (fun pr => p pr.2)).map Prod.snd = ys.filter p := by
  rw [← (maskSelect_zip p xs ys h).2, maskSelect_self]

/-- Claim C3: for `counts` of length `k` and `bins` of length `k + 1`,
`get_bulk_edge_values` keeps exactly the left edges `bins[i]` with
`bins[i] <= 2` and `bins[i] >= -2` (with their counts) as the bulk, the
complementary positions as the tail, and returns the four arrays in the
order (bulk counts, bulk left edges, tail counts, tail left edges); in
particular on `counts = [1,2,3,4]`, `bins = [-3,-1,0,1,3]` it returns
`([2,3,4], [-1,0,1], [1], [-3])`. -/
theorem get_bulk_edge_values_masks (counts bins : List ℚ)
    (h : bins.length = counts.length + 1) :
    get_bulk_edge_values counts bins =
      some (((counts.zip bins.dropLast).filter (fun pr => bulkP pr.2)).map Prod.fst,
            bins.dropLast.filter (fun x => decide (x ≤ 2) && decide (-2 ≤ x)),
            ((counts.zip bins.dropLast).filter (fun pr => !bulkP pr.2)).map Prod.fst,
            bins.dropLast.filter (fun x => !(decide (x ≤ 2) && decide (-2 ≤ x)))) ∧
    get_bulk_edge_values [1, 2, 3, 4] [-3, -1, 0, 1, 3] =
      some ([2, 3, 4], [-1, 0, 1], [1], [-3]) := by
  have hlen : counts.length = bins.dropLast.length := by
    rw [List.length_dropLast, h]
    simp
  refine ⟨?_, by decide⟩
  have h2 := filter_zip_map_snd bulkP counts bins.dropLast hlen
  have h4 := filter_zip_map_snd (fun x => !bulkP x) counts bins.dropLast hlen
  rw [get_bulk_eq counts bins h, h2, h4]
  rfl

/-- Claim C3 witness: the characterization applied at the concrete histogram
`counts = [7]`, `bins = [0, 1]`. -/
theorem get_bulk_edge_values_masks_witness :
    ([0, 1] : List ℚ).length = ([7] : List ℚ).length + 1 ∧
    (get_bulk_edge_values [7] [0, 1] =
      some (((([7] : List ℚ).zip ([0, 1] : List ℚ).dropLast).filter
              (fun pr => bulkP pr.2)).map Prod.fst,
            ([0, 1] : List ℚ).dropLast.filter
              (fun x => decide (x ≤ 2) && decide (-2 ≤ x)),
            ((([7] : List ℚ).zip ([0, 1] : List ℚ).dropLast).filter
              (fun pr => !bulkP pr.2)).map Prod.fst,
            ([0, 1] : List ℚ).dropLast.filter
              (fun x => !(decide (x ≤ 2) && decide (-2 ≤ x)))) ∧
      get_bulk_edge_values [1, 2, 3, 4] [-3, -1, 0, 1, 3] =
        some ([2, 3, 4], [-1, 0, 1], [1], [-3])) :=
  ⟨by decide, get_bulk_edge_values_masks [7] [0, 1] (by decide)⟩

/-- Claim C6 counterexample: at `counts = [1, 2, 3]`, `bins = [0, 1]` the
histogram convention is violated and `get_bulk_edge_values` does NOT return
normally: the first boolean indexing `counts[bulk_mask]` raises numpy's
`IndexError` (mask length 1 against array length 3), modelled as `none`. -/
theorem get_bulk_edge_values_mismatch_cex :
    ([0, 1] : List ℚ).length ≠ ([1, 2, 3] : List ℚ).length + 1 ∧
    get_bulk_edge_values [1, 2, 3] [0, 1] = none := by decide

/-- Claim C6 (amended): when `len(bins) ≠ len(counts) + 1` and the two inputs
are not both empty, `get_bulk_edge_values` fails with numpy's boolean-index
shape `IndexError` (modelled `none`) instead of returning misaligned
arrays. -/
theorem get_bulk_edge_values_mismatch_raises (counts bins : List ℚ)
    (hlen : bins.length ≠ counts.length + 1)
    (hne : bins ≠ [] ∨ counts ≠ []) :
    get_bulk_edge_values counts bins = none :=
  get_bulk_none counts bins hlen hne

/-- Claim C6 (amended) witness: the shape failure at `counts = [5]`,
`bins = []`. -/
theorem get_bulk_edge_values_mismatch_raises_witness :
    ([] : List ℚ).length ≠ ([5] : List ℚ).length + 1 ∧
    get_bulk_edge_values [5] [] = none :=
  ⟨by decide,
    get_bulk_edge_values_mismatch_raises [5] [] (by decide) (Or.inr (by decide))⟩

/-- Claim C10: on a well-formed histogram the four returned arrays preserve
the original pairing and relative order: bulk counts and bulk edges have
equal lengths, tail counts and tail edges have equal lengths, the bulk and
tail parts together have exactly `len(counts)` entries, the zipped
`(count, edge)` pairs of each part form a sublist (order-preserving
selection at strictly increasing indices) of the original pairs, and the
two selections are complementary: one boolean mask over all `len(counts)`
positions yields the bulk pairs at its `true` indices and the tail pairs at
the complementary (`false`) indices. -/
theorem get_bulk_edge_values_pairing (counts bins : List ℚ)
    (h : bins.length = counts.length + 1) (br bl tr tl : List ℚ)
    (hr : get_bulk_edge_values counts bins = some (br, bl, tr, tl)) :
    br.length = bl.length ∧ tr.length = tl.length ∧
    br.length + tr.length = counts.length ∧
    List.Sublist (br.zip bl) (counts.zip bins.dropLast) ∧
    List.Sublist (tr.zip tl) (counts.zip bins.dropLast) ∧
    (∃ m : List Bool, m.length = counts.length ∧
      br.zip bl = maskSelect (counts.zip bins.dropLast) m ∧
      tr.zip tl = maskSelect (counts.zip bins.dropLast) (m.map (fun b => !b))) := by
  have hlen : counts.length = bins.dropLast.length := by
    rw [List.length_dropLast, h]
    simp
  have hzlen : (counts.zip bins.dropLast).length = counts.length := by
    rw [List.length_zip, ← hlen, min_self]
  rw [get_bulk_eq counts bins h] at hr
  simp only [Option.some.injEq, Prod.mk.injEq] at hr
  obtain ⟨e1, e2, e3, e4⟩ := hr
  subst e1 e2 e3 e4
  have hzipB : ∀ (B : List (ℚ × ℚ)),
      (B.map Prod.fst).zip (B.map Prod.snd) = B := by
    intro B
    rw [List.zip_map' Prod.fst Prod.snd B]
    simp
  refine ⟨by simp, by simp, ?_, ?_, ?_, ?_⟩
  · have hpart := length_filter_add_length_filter_not (counts.zip bins.dropLast)
      (fun pr => bulkP pr.2)
    simp only [List.length_map]
    rw [hpart, hzlen]
  · rw [hzipB]
    exact List.filter_sublist _
  · rw [hzipB]
    exact List.filter_sublist _
  · refine ⟨(counts.zip bins.dropLast).map (fun pr => bulkP pr.2),
      by rw [List.length_map, hzlen], ?_, ?_⟩
    · rw [hzipB]
      exact (maskSelect_self _ _).symm
    · rw [hzipB, List.map_map]
      exact (maskSelect_self _ _).symm

/-- Claim C10 witness: the pairing invariant applied at the concrete
histogram `counts = [1, 2]`, `bins = [-3, 0, 1]`, whose bulk part is
`([2], [0])` and tail part is `([1], [-3])`. -/
theorem get_bulk_edge_values_pairing_witness :
    ([-3, 0, 1] : List ℚ).length = ([1, 2] : List ℚ).length + 1 ∧
    get_bulk_edge_values [1, 2] [-3, 0, 1] = some ([2], [0], [1], [-3]) ∧
    (([2] : List ℚ).length = ([0] : List ℚ).length ∧
     ([1] : List ℚ).length = ([-3] : List ℚ).length ∧
     ([2] : List ℚ).length + ([1] : List ℚ).length = ([1, 2] : List ℚ).length ∧
     List.Sublist (([2] : List ℚ).zip ([0] : List ℚ))
       (([1, 2] : List ℚ).zip ([-3, 0, 1] : List ℚ).dropLast) ∧
     List.Sublist (([1] : List ℚ).zip ([-3] : List ℚ))
       (([1, 2] : List ℚ).zip ([-3, 0, 1] : List ℚ).dropLast) ∧
     (∃ m : List Bool, m.length = ([1, 2] : List ℚ).length ∧
       ([2] : List ℚ).zip ([0] : List ℚ) =
         maskSelect (([1, 2] : List ℚ).zip ([-3, 0, 1] : List ℚ).dropLast) m ∧
       ([1] : List ℚ).zip ([-3] : List ℚ) =
         maskSelect (([1, 2] : List ℚ).zip ([-3, 0, 1] : List ℚ).dropLast)
           (m.map (fun b => !b)))) :=
  ⟨by decide, by decide,
    get_bulk_edge_values_pairing [1, 2] [-3, 0, 1] (by decide)
      [2] [0] [1] [-3] (by decide)⟩

/-! ### Helper lemmas for `rmse` -/

/-- Every entry of the zipped squared-difference list is non-negative. -/
lemma zipWith_sq_nonneg :
    ∀ (a b : List ℝ) (z : ℝ), z ∈ List.zipWith (fun x y => (x - y) ^ 2) a b → 0 ≤ z
  | [], _, z, hz => by simp at hz
  | _ :: _, [], z, hz => by simp at hz
  | x :: a, y :: b, z, hz => by
      rcases List.mem_cons.mp hz with h | h
      · rw [h]; positivity
      · exact zipWith_sq_nonneg a b z h

/-- A sum of squares is zero exactly when every entry is zero. -/
lemma sum_sq_eq_zero_iff (l : List ℝ) :
    (l.map (fun x => x ^ 2)).sum = 0 ↔ ∀ x ∈ l, x = 0 := by
  induction l with
  | nil => simp
  | cons x xs ih =>
      have hx : (0 : ℝ) ≤ x ^ 2 := sq_nonneg x
      have hxs : (0 : ℝ) ≤ (xs.map (fun x => x ^ 2)).sum :=
        List.sum_nonneg (by
          intro z hz
          simp only [List.mem_map] at hz
          obtain ⟨y, _, rfl⟩ := hz
          positivity)
      simp only [List.map_cons, List.sum_cons, List.mem_cons]
      rw [add_eq_zero_iff_of_nonneg hx hxs, sq_eq_zero_iff, ih]
      constructor
      · rintro ⟨h1, h2⟩ y (rfl | hy)
        · exact h1
        · exact h2 y hy
      · intro hall
        exact ⟨hall x (Or.inl rfl), fun y hy => hall y (Or.inr hy)⟩

/-- The elementwise differences of two same-length lists all vanish exactly
when the lists are equal. -/
lemma zipWith_sub_zero_iff :
    ∀ (a b : List ℝ), a.length = b.length →
      ((∀ z ∈ List.zipWith (fun x y => x - y) a b, z = 0) ↔ a = b)
  | [], [] => by simp
  | [], _ :: _ => by intro h; simp at h
  | _ :: _, [] => by intro h; simp at h
  | x :: a, y :: b => by
      intro h
      have h' : a.length = b.length := by simpa using h
      have ih := zipWith_sub_zero_iff a b h'
      simp [List.forall_mem_cons, ih, sub_eq_zero]

/-- On equal-length nonempty inputs `rmse` returns the real scalar
`sqrt(mean((numerical - expected)^2))`. -/
lemma rmse_val_eq (a b : List ℝ) (h : a.length = b.length) (hne : a ≠ []) :
    rmse a b =
      some (RVal.val (Real.sqrt
        ((List.zipWith (fun x y => (x - y) ^ 2) a b).sum / a.length))) := by
  have hsub : npSub a b = some (List.zipWith (fun x y => x - y) a b) := by
    unfold npSub
    rw [if_pos h]
  have hsq : npSquare (List.zipWith (fun x y => x - y) a b) =
      List.zipWith (fun x y => (x - y) ^ 2) a b := by
    unfold npSquare
    rw [List.map_zipWith]
  have hlen0 : 0 < a.length := List.length_pos.mpr hne
  have hLlen : (List.zipWith (fun x y => (x - y) ^ 2) a b).length = a.length := by
    rw [List.length_zipWith, ← h, min_self]
  have hmean : npMean (List.zipWith (fun x y => (x - y) ^ 2) a b) =
      RVal.val ((List.zipWith (fun x y => (x - y) ^ 2) a b).sum / a.length) := by
    rcases hL : List.zipWith (fun x y => (x - y) ^ 2) a b with _ | ⟨z, zs⟩
    · rw [hL] at hLlen
      simp at hLlen
      omega
    · rw [← hL, ← hLlen]
      rw [hL]
      rfl
  have hnonneg : 0 ≤ (List.zipWith (fun x y => (x - y) ^ 2) a b).sum / (a.length : ℝ) :=
    div_nonneg (List.sum_nonneg (fun z hz => zipWith_sq_nonneg a b z hz))
      (by positivity)
  unfold rmse
  rw [hsub, Option.map_some', hsq, hmean]
  simp only [npSqrt]
  rw [if_neg (not_lt.mpr hnonneg)]

/-- Claim C4: for equal-length numeric arrays, `rmse` returns the scalar
`sqrt(mean((numerical - expected)^2))` — the NaN that numpy produces for the
(vacuous) empty mean is exactly `sqrt(mean([]))` as well. -/
theorem rmse_formula (a b : List ℝ) (h : a.length = b.length) :
    (a = [] → rmse a b = some RVal.nan) ∧
    (a ≠ [] → rmse a b =
      some (RVal.val (Real.sqrt
        ((List.zipWith (fun x y => (x - y) ^ 2) a b).sum / a.length)))) := by
  constructor
  · rintro rfl
    have hb : b = [] := by
      cases b with
      | nil => rfl
      | cons y ys => simp at h
    subst hb
    rfl
  · intro hne
    exact rmse_val_eq a b h hne

/-- Claim C4 witness: the formula applied at `numerical = [3]`,
`expected = [1]`. -/
theorem rmse_formula_witness :
    ([3] : List ℝ).length = ([1] : List ℝ).length ∧
    ((([3] : List ℝ) = [] → rmse [3] [1] = some RVal.nan) ∧
     (([3] : List ℝ) ≠ [] → rmse [3] [1] =
       some (RVal.val (Real.sqrt
         ((List.zipWith (fun x y => (x - y) ^ 2) ([3] : List ℝ) [1]).sum /
           ([3] : List ℝ).length))))) :=
  ⟨rfl, rmse_formula [3] [1] rfl⟩

/-- Claim C5 counterexample: `numerical = [0]` and `expected = [0, 0]` have
unequal lengths, yet `rmse` silently broadcasts the length-1 array (numpy
broadcasting) and returns the value `0.0` instead of failing. -/
theorem rmse_broadcast_cex :
    ([0] : List ℝ).length ≠ ([0, 0] : List ℝ).length ∧
    rmse [0] [0, 0] = some (RVal.val 0) := by
  refine ⟨by decide, ?_⟩
  have hsub : npSub [0] [0, 0] = some [0 - 0, 0 - 0] := rfl
  unfold rmse
  rw [hsub, Option.map_some']
  have hm : npMean (npSquare [0 - 0, 0 - 0]) =
      RVal.val ((((0 : ℝ) - 0) ^ 2 + (((0 : ℝ) - 0) ^ 2 + 0)) / 2) := rfl
  rw [hm]
  simp only [npSqrt]
  norm_num

/-- Claim C5 (amended): `rmse` on arrays of unequal lengths fails with
numpy's broadcast `ValueError` (modelled `none`) whenever neither array has
length 1; but when one of the two has length 1 it is silently broadcast
against the other and `rmse` returns a value. -/
theorem rmse_mismatch (a b : List ℝ) (h : a.length ≠ b.length) :
    (a.length ≠ 1 → b.length ≠ 1 → rmse a b = none) ∧
    ((a.length = 1 ∨ b.length = 1) → ∃ v, rmse a b = some v) := by
  constructor
  · intro ha hb
    have hsub : npSub a b = none := by
      unfold npSub
      rw [if_neg h]
      rcases a with _ | ⟨xa, _ | ⟨xa2, ta⟩⟩ <;>
        rcases b with _ | ⟨xb, _ | ⟨xb2, tb⟩⟩ <;>
        first
          | rfl
          | (exact absurd rfl ha)
          | (exact absurd rfl hb)
    unfold rmse
    rw [hsub]
    rfl
  · intro h1
    unfold rmse npSub
    rw [if_neg h]
    rcases h1 with h1 | h1
    · obtain ⟨x, rfl⟩ : ∃ x, a = [x] := by
        rcases a with _ | ⟨xa, _ | ⟨xa2, ta⟩⟩ <;> simp at h1
        exact ⟨xa, rfl⟩
      rcases b with _ | ⟨yb, _ | ⟨yb2, tb⟩⟩
      · exact ⟨_, rfl⟩
      · exact absurd rfl h
      · exact ⟨_, rfl⟩
    · obtain ⟨y, rfl⟩ : ∃ y, b = [y] := by
        rcases b with _ | ⟨xb, _ | ⟨xb2, tb⟩⟩ <;> simp at h1
        exact ⟨xb, rfl⟩
      rcases a with _ | ⟨xa, _ | ⟨xa2, ta⟩⟩
      · exact ⟨_, rfl⟩
      · exact absurd rfl h
      · exact ⟨_, rfl⟩

/-- Claim C5 (amended) witness: lengths 2 and 3 (neither equal to 1) make
`rmse` fail, and the broadcast clause is vacuous there. -/
theorem rmse_mismatch_witness :
    ([1, 2] : List ℝ).length ≠ ([1, 2, 3] : List ℝ).length ∧
    ((([1, 2] : List ℝ).length ≠ 1 → ([1, 2, 3] : List ℝ).length ≠ 1 →
        rmse [1, 2] [1, 2, 3] = none) ∧
     ((([1, 2] : List ℝ).length = 1 ∨ ([1, 2, 3] : List ℝ).length = 1) →
        ∃ v, rmse [1, 2] [1, 2, 3] = some v)) :=
  ⟨by decide, rmse_mismatch [1, 2] [1, 2, 3] (by decide)⟩

/-- Claim C7 counterexample: at the empty array, `rmse(x, x)` is numpy's NaN
(`np.mean` of an empty array), not `0`. -/
theorem rmse_empty_cex :
    rmse ([] : List ℝ) [] = some RVal.nan ∧
    rmse ([] : List ℝ) [] ≠ some (RVal.val 0) := by
  have h1 : rmse ([] : List ℝ) [] = some RVal.nan := rfl
  refine ⟨h1, ?_⟩
  intro hc
  rw [h1] at hc
  injection hc with hc'
  exact RVal.noConfusion hc'

/-- Claim C7 (amended): on equal-length nonempty arrays `rmse` returns a
real value `r` with `r ≥ 0`, and `r = 0` exactly when the two arrays are
elementwise identical; in particular `rmse(x, x) = 0` for nonempty `x`. -/
theorem rmse_zero_iff (a b : List ℝ) (h : a.length = b.length) (hne : a ≠ []) :
    ∃ r, rmse a b = some (RVal.val r) ∧ 0 ≤ r ∧ (r = 0 ↔ a = b) := by
  refine ⟨_, rmse_val_eq a b h hne, Real.sqrt_nonneg _, ?_⟩
  have hlen0 : 0 < a.length := List.length_pos.mpr hne
  have hnonneg : 0 ≤ (List.zipWith (fun x y => (x - y) ^ 2) a b).sum / (a.length : ℝ) :=
    div_nonneg (List.sum_nonneg (fun z hz => zipWith_sq_nonneg a b z hz))
      (by positivity)
  rw [Real.sqrt_eq_zero hnonneg]
  rw [div_eq_zero_iff]
  have hcast : ((a.length : ℝ) ≠ 0) := by
    simp only [ne_eq, Nat.cast_eq_zero]
    omega
  have hsq : List.zipWith (fun x y => (x - y) ^ 2) a b =
      (List.zipWith (fun x y => x - y) a b).map (fun z => z ^ 2) := by
    rw [List.map_zipWith]
  constructor
  · rintro (hz | hz)
    · rw [hsq, sum_sq_eq_zero_iff] at hz
      exact (zipWith_sub_zero_iff a b h).mp hz
    · exact absurd hz hcast
  · rintro rfl
    left
    rw [hsq, sum_sq_eq_zero_iff]
    exact (zipWith_sub_zero_iff a a rfl).mpr rfl

/-- Claim C7 (amended) witness: the characterization applied at `a = [1]`,
`b = [2]`. -/
theorem rmse_zero_iff_witness :
    ([1] : List ℝ).length = ([2] : List ℝ).length ∧ ([1] : List ℝ) ≠ [] ∧
    ∃ r, rmse [1] [2] = some (RVal.val r) ∧ 0 ≤ r ∧
      (r = 0 ↔ ([1] : List ℝ) = [2]) :=
  ⟨rfl, by simp, rmse_zero_iff [1] [2] rfl (by simp)⟩

/-! ### Helper lemmas for `wigner` -/

/-- In the semicircle support `|x| ≤ 2`, `wignerVal` is the real value
`sqrt(4 - x^2) / (2*pi)`. -/
lemma wignerVal_of_le (x : ℝ) (hx : |x| ≤ 2) :
    wignerVal x = RVal.val (Real.sqrt (4 - x ^ 2) / (2 * Real.pi)) := by
  obtain ⟨h1, h2⟩ := abs_le.mp hx
  have h4 : ¬(4 - x ^ 2 < 0) := by nlinarith
  unfold wignerVal
  simp only [npSqrt]
  rw [if_neg h4]
  rfl

/-- Outside the support, `4 - x^2` is negative, its numpy square root is
NaN, and NaN propagates through the division: `wignerVal` is NaN. -/
lemma wignerVal_of_gt (x : ℝ) (hx : 2 < |x|) : wignerVal x = RVal.nan := by
  have habs : (0 : ℝ) ≤ |x| := abs_nonneg x
  have h4 : 4 - x ^ 2 < 0 := by
    have hsq : 4 < |x| ^ 2 := by nlinarith
    rw [sq_abs] at hsq
    linarith
  unfold wignerVal
  simp only [npSqrt]
  rw [if_pos h4]
  rfl

/-- Claim C8: on arrays with all entries in `[-2, 2]`, `wigner` returns
elementwise `sqrt(4 - l^2) / (2*pi)`; in particular `wigner(2) = 0`,
`wigner(-2) = 0`, `wigner(0) = 2/(2*pi)`, and `wigner` is even. -/
theorem wigner_in_domain (l : List ℝ) (h : ∀ x ∈ l, |x| ≤ 2) :
    wigner l = l.map (fun x => RVal.val (Real.sqrt (4 - x ^ 2) / (2 * Real.pi))) ∧
    wignerVal 2 = RVal.val 0 ∧
    wignerVal (-2) = RVal.val 0 ∧
    wignerVal 0 = RVal.val (2 / (2 * Real.pi)) ∧
    (∀ x : ℝ, wignerVal x = wignerVal (-x)) := by
  have hsqrt4 : Real.sqrt 4 = 2 := by
    rw [show (4 : ℝ) = 2 ^ 2 by norm_num, Real.sqrt_sq (by norm_num : (0 : ℝ) ≤ 2)]
  refine ⟨?_, ?_, ?_, ?_, ?_⟩
  · unfold wigner
    exact List.map_congr_left (fun x hx => wignerVal_of_le x (h x hx))
  · rw [wignerVal_of_le 2 (by rw [abs_le]; norm_num)]
    norm_num
  · rw [wignerVal_of_le (-2) (by rw [abs_le]; norm_num)]
    norm_num
  · rw [wignerVal_of_le 0 (by rw [abs_le]; norm_num)]
    norm_num [hsqrt4]
  · intro x
    unfold wignerVal
    rw [neg_pow]
    norm_num

/-- Claim C8 witness: the in-domain description applied at `l = [0]`. -/
theorem wigner_in_domain_witness :
    (∀ x ∈ ([0] : List ℝ), |x| ≤ 2) ∧
    (wigner [0] =
      ([0] : List ℝ).map (fun x => RVal.val (Real.sqrt (4 - x ^ 2) / (2 * Real.pi))) ∧
     wignerVal 2 = RVal.val 0 ∧
     wignerVal (-2) = RVal.val 0 ∧
     wignerVal 0 = RVal.val (2 / (2 * Real.pi)) ∧
     (∀ x : ℝ, wignerVal x = wignerVal (-x))) :=
  ⟨by norm_num, wigner_in_domain [0] (by norm_num)⟩

/-- Claim C9: on an array with some out-of-domain entry (`|x| > 2`),
`wigner` still returns an array of the same length (no exception is
raised); each out-of-domain position carries the NaN sentinel while each
in-domain position is evaluated normally. -/
theorem wigner_out_of_domain (l : List ℝ) (_h : ∃ x ∈ l, 2 < |x|) :
    (wigner l).length = l.length ∧
    wigner l = l.map wignerVal ∧
    (∀ x : ℝ, 2 < |x| → wignerVal x = RVal.nan) ∧
    (∀ x : ℝ, |x| ≤ 2 →
      wignerVal x = RVal.val (Real.sqrt (4 - x ^ 2) / (2 * Real.pi))) :=
  ⟨by unfold wigner; rw [List.length_map], rfl,
   fun x hx => wignerVal_of_gt x hx, fun x hx => wignerVal_of_le x hx⟩

/-- Claim C9 witness: applied at `l = [3]`, whose only entry is out of
domain. -/
theorem wigner_out_of_domain_witness :
    (∃ x ∈ ([3] : List ℝ), 2 < |x|) ∧
    ((wigner [3]).length = ([3] : List ℝ).length ∧
     wigner [3] = ([3] : List ℝ).map wignerVal ∧
     (∀ x : ℝ, 2 < |x| → wignerVal x = RVal.nan) ∧
     (∀ x : ℝ, |x| ≤ 2 →
       wignerVal x = RVal.val (Real.sqrt (4 - x ^ 2) / (2 * Real.pi)))) :=
  ⟨⟨3, by norm_num⟩, wigner_out_of_domain [3] ⟨3, by norm_num⟩⟩

/-! ### Helper lemmas for `rm_sampling` -/

/-- Unrolling of the sampling loop: starting at cursor `c` with accumulator
`acc`, `m` iterations append the `m` per-sample blocks, the `k`-th drawn at
cursor `c + k*N*N`. -/
lemma rm_sampling_loop_eq (eig : List (List ℝ) → List ℝ) (cast : ℝ → ℝ)
    (N : ℕ) (sigma : ℝ) (g : ℕ → ℝ) :
    ∀ (m c : ℕ) (acc : List (List ℝ)),
      rm_sampling_loop eig cast N sigma g m c acc =
        acc ++ (List.range m).map (fun k =>
          (eig (symmetrize (drawMatrix N sigma g (c + k * (N * N))))).map cast)
  | 0, c, acc => by
      simp [rm_sampling_loop]
  | m + 1, c, acc => by
      rw [rm_sampling_loop]
      rw [rm_sampling_loop_eq eig cast N sigma g m (c + N * N) _]
      rw [List.range_succ_eq_map, List.map_cons, List.map_map]
      simp only [List.append_assoc, List.singleton_append, Nat.zero_mul,
        Nat.add_zero]
      congr 1
      congr 1
      apply List.map_congr_left
      intro k _
      simp only [Function.comp_apply]
      have hc : c + N * N + k * (N * N) = c + Nat.succ k * (N * N) := by
        rw [Nat.succ_mul]
        omega
      rw [hc]

/-- Claim C1: for positive `n_samples` and `N` and any generator stream,
`rm_sampling` returns exactly the concatenation, over the `n_samples`
iterations in order, of the cast eigenvalues of `Xs = (X + X.T)/sqrt 2`,
where the `k`-th `X` is the `N×N` matrix of the generator's deviates scaled
by `sigma = N^(-1/2)` (refinement of the specification description). -/
theorem rm_sampling_refines_spec (eig : List (List ℝ) → List ℝ) (cast : ℝ → ℝ)
    (n_samples N : ℕ) (g : ℕ → ℝ) (_hn : 0 < n_samples) (_hN : 0 < N) :
    rm_sampling eig cast n_samples N g = rm_sampling_spec eig cast n_samples N g := by
  unfold rm_sampling rm_sampling_spec
  rw [rm_sampling_loop_eq]
  simp only [List.nil_append, Nat.zero_add]

/-- Claim C1 witness: the refinement applied at `n_samples = 1`, `N = 1`,
with a concrete eigensolver, cast, and generator stream. -/
theorem rm_sampling_refines_spec_witness :
    0 < 1 ∧
    rm_sampling (fun _ => ([0] : List ℝ)) (fun x => x) 1 1 (fun _ => 0) =
      rm_sampling_spec (fun _ => ([0] : List ℝ)) (fun x => x) 1 1 (fun _ => 0) :=
  ⟨Nat.one_pos,
    rm_sampling_refines_spec (fun _ => ([0] : List ℝ)) (fun x => x) 1 1
      (fun _ => 0) Nat.one_pos Nat.one_pos⟩

/-- Both intermediate matrices of one sampling step are `N × N` (lists of
`N` rows). -/
lemma symmetrize_drawMatrix_length (N : ℕ) (sigma : ℝ) (g : ℕ → ℝ) (c : ℕ) :
    (symmetrize (drawMatrix N sigma g c)).length = N := by
  unfold symmetrize drawMatrix
  simp

/-- Claim C2: for positive `n_samples` and `N`, and an eigensolver returning
`N` eigenvalues on `N`-row matrices (the contract of `eigvalsh`),
`rm_sampling` returns a flat array of exactly `n_samples * N` values. -/
theorem rm_sampling_length (eig : List (List ℝ) → List ℝ) (cast : ℝ → ℝ)
    (n_samples N : ℕ) (g : ℕ → ℝ) (_hn : 0 < n_samples) (_hN : 0 < N)
    (heig : ∀ M : List (List ℝ), M.length = N → (eig M).length = N) :
    (rm_sampling eig cast n_samples N g).length = n_samples * N := by
  unfold rm_sampling
  rw [rm_sampling_loop_eq]
  rw [List.nil_append, List.length_flatten, List.map_map]
  have hcongr : (List.range n_samples).map
      ((fun l : List ℝ => l.length) ∘ (fun k =>
        (eig (symmetrize (drawMatrix N ((N : ℝ) ^ (-(1 / 2 : ℝ))) g
          (0 + k * (N * N))))).map cast)) =
      (List.range n_samples).map (fun _ => N) := by
    apply List.map_congr_left
    intro k _
    simp only [Function.comp]
    rw [List.length_map]
    exact heig _ (symmetrize_drawMatrix_length N _ g _)
  rw [hcongr]
  rw [List.map_const']
  rw [List.sum_replicate, List.length_range, smul_eq_mul]

/-- Claim C2 witness: `rm_sampling(n_samples=1, N=2, rng)` returns exactly
`1 * 2 = 2` values, with a concrete eigensolver honouring the `eigvalsh`
length contract. -/
theorem rm_sampling_length_witness :
    0 < 1 ∧ 0 < 2 ∧
    (rm_sampling (fun _ => ([0, 0] : List ℝ)) (fun x => x) 1 2
      (fun _ => 0)).length = 1 * 2 :=
  ⟨Nat.one_pos, by norm_num,
    rm_sampling_length (fun _ => ([0, 0] : List ℝ)) (fun x => x) 1 2
      (fun _ => 0) Nat.one_pos (by norm_num) (fun _ _ => rfl)⟩
